import Mathlib

/-!
Verification of the FaturasContinente receipt pipeline
(`streamlit_app.py`).  The field resolver `extract_date_and_total` is
embedded as executable Lean definitions; the SQLite-backed record store
(insert / `SELECT ... ORDER BY date`) is modelled as a list of rows and a
sort by the stored ISO date string.

Modelling conventions:
* texts are `String`s, processed as their `List Char` data;
* Python `float` results are modelled exactly as rationals (every value
  reachable here is a finite decimal, so no rounding behaviour is
  observable in the claims);
* the regex character classes `\s` and `\d` are modelled by their ASCII
  parts (the receipts and all claim inputs are within ASCII coverage);
* each regex is compiled to a committed (maximal-munch) matcher; this is
  equivalent to Python's backtracking engine for these patterns because
  every pair of adjacent quantified character classes is disjoint
  (whitespace / `[:\-]` / digits / `[.,]` / `€` never overlap), so no
  backtracking branch can succeed where the committed branch fails.
-/

namespace Faturas

/-- A calendar date as produced by `datetime.strptime(..., "%d/%m/%Y").date()`. -/
structure Date where
  year : Nat
  month : Nat
  day : Nat
deriving DecidableEq, Repr

/-- Leap-year rule used by `datetime` (proleptic Gregorian). -/
def isLeap (y : Nat) : Bool := y % 4 = 0 && (y % 100 != 0 || y % 400 = 0)

/-- Number of days in a month, as validated by `datetime`. -/
def daysInMonth (y m : Nat) : Nat :=
  if m = 2 then (if isLeap y then 29 else 28)
  else if m = 4 || m = 6 || m = 9 || m = 11 then 30
  else 31

/-- The dates `datetime.date` accepts (with the 4-digit-year cap imposed by
the `\d{4}` year group of the date regex). -/
def validDate (d : Date) : Prop :=
  1 ≤ d.month ∧ d.month ≤ 12 ∧ 1 ≤ d.day ∧ d.day ≤ daysInMonth d.year d.month ∧
    1 ≤ d.year ∧ d.year ≤ 9999

instance (d : Date) : Decidable (validDate d) := by
  unfold validDate; infer_instance

/-- Numeric value of a decimal digit character. -/
def digitVal (c : Char) : Nat := c.toNat - '0'.toNat

/-- Value of a digit string, most significant first (`int` on digit text). -/
def digitsToNat (cs : List Char) : Nat := cs.foldl (fun a c => 10 * a + digitVal c) 0

/-- The separator class `[/\-]` of the date regex. -/
def isDateSep (c : Char) : Bool := c = '/' || c = '-'

/-- Matches a fixed sequence of character classes at the head of the
text, returning the matched characters (a regex with only single-character
classes, like `\d{2}[/\-]\d{2}[/\-]\d{4}`). -/
def matchSeq : List (Char → Bool) → List Char → Option (List Char)
  | [], _ => some []
  | _ :: _, [] => none
  | p :: ps, c :: cs => if p c then (matchSeq ps cs).map (fun r => c :: r) else none

/-- The class sequence of the date regex `\d{2}[/\-]\d{2}[/\-]\d{4}`. -/
def dateShape : List (Char → Bool) :=
  [Char.isDigit, Char.isDigit, isDateSep, Char.isDigit, Char.isDigit, isDateSep,
   Char.isDigit, Char.isDigit, Char.isDigit, Char.isDigit]

/-- Position matcher for the date regex `(\d{2}[/\-]\d{2}[/\-]\d{4})`
(line 31 of `streamlit_app.py`); returns the matched substring. -/
def dateAt (cs : List Char) : Option String := (matchSeq dateShape cs).map String.mk

/-- `re.search` for the date regex: leftmost match wins. -/
def searchDate : List Char → Option String
  | [] => none
  | c :: rest =>
    match dateAt (c :: rest) with
    | some s => some s
    | none => searchDate rest

/-- `datetime.strptime(m.replace('-', '/'), "%d/%m/%Y").date()`, with the
`try/except` returning `none` on any parse or range failure
(lines 34-37 of `streamlit_app.py`). -/
def parseDate (s : String) : Option Date :=
  match s.data.map (fun c => if c = '-' then '/' else c) with
  | [d1, d2, s1, m1, m2, s2, y1, y2, y3, y4] =>
    if d1.isDigit && d2.isDigit && s1 = '/' && m1.isDigit && m2.isDigit && s2 = '/'
        && y1.isDigit && y2.isDigit && y3.isDigit && y4.isDigit then
      let day := 10 * digitVal d1 + digitVal d2
      let month := 10 * digitVal m1 + digitVal m2
      let year := 1000 * digitVal y1 + 100 * digitVal y2 + 10 * digitVal y3 + digitVal y4
      if 1 ≤ month ∧ month ≤ 12 ∧ 1 ≤ day ∧ day ≤ daysInMonth year month ∧ 1 ≤ year ∧
          year ≤ 9999 then
        some ⟨year, month, day⟩
      else none
    else none
  | _ => none

/-- The decimal-separator class `[.,]`. -/
def isDecSep (c : Char) : Bool := c = '.' || c = ','

/-- Committed position matcher for the amount shape `[0-9]+[.,][0-9]{2}`:
returns the matched substring and its length.  `[0-9]+` is maximal munch,
which agrees with Python's greedy matching since digits and `[.,]` are
disjoint classes. -/
def numAt (cs : List Char) : Option (String × Nat) :=
  let ds := cs.takeWhile Char.isDigit
  match cs.drop ds.length with
  | sep :: a :: b :: _ =>
    if !ds.isEmpty && isDecSep sep && a.isDigit && b.isDigit then
      some (String.mk (ds ++ [sep, a, b]), ds.length + 3)
    else none
  | _ => none

theorem numAt_pos {cs : List Char} {s : String} {n : Nat}
    (h : numAt cs = some (s, n)) : 0 < n := by
  simp only [numAt] at h
  split at h
  · split at h
    · simp only [Option.some.injEq, Prod.mk.injEq] at h
      omega
    · exact absurd h (by simp)
  · exact absurd h (by simp)

/-- Fuel-indexed scanner underlying `findAllNums`: at each position emit
the `numAt` match and continue after it, or advance one character.  The
fuel only bounds recursion depth (every step consumes at least one
character, so `cs.length` fuel always suffices). -/
def findAllNumsAux : Nat → List Char → List String
  | 0, _ => []
  | _ + 1, [] => []
  | fuel + 1, c :: rest =>
    match numAt (c :: rest) with
    | some (s, n) => s :: findAllNumsAux fuel ((c :: rest).drop n)
    | none => findAllNumsAux fuel rest

/-- `re.findall(r"[0-9]+[.,][0-9]{2}", text)`: leftmost, non-overlapping
matches, scanning left to right (line 64 of `streamlit_app.py`). -/
def findAllNums (cs : List Char) : List String := findAllNumsAux cs.length cs

/-- The class `\s` (ASCII part, matching Python's `[ \t\n\r\f\v]`). -/
def isPySpace (c : Char) : Bool :=
  c = ' ' || c = '\t' || c = '\n' || c = '\r' || c = '\x0b' || c = '\x0c'

/-- `\s*` (greedy; committed, since whitespace is disjoint from every
following class in the patterns). -/
def skipSpaces (cs : List Char) : List Char := cs.dropWhile isPySpace

/-- `[:\-]?` (greedy; committed, since `:`/`-` is disjoint from `\s` and
digits that follow). -/
def skipOptColonDash : List Char → List Char
  | [] => []
  | c :: cs => if c = ':' || c = '-' then cs else c :: cs

/-- Case-insensitive literal match (`re.IGNORECASE`; labels are ASCII). -/
def stripCI : List Char → List Char → Option (List Char)
  | [], cs => some cs
  | _ :: _, [] => none
  | l :: ls, c :: cs => if c.toLower = l.toLower then stripCI ls cs else none

/-- One labeled-amount regex from the ordered list at lines 41-48: a label
phrase, then `\s*[:\-]?\s*([0-9]+[.,][0-9]{2})`, optionally followed by
`\s*€`.  The captured value group (`m.groups()[-1]`) is the amount; the
extra `(Total)` group of the sixth pattern captures only the label, so the
last group is the amount for all six patterns. -/
structure LabeledPattern where
  label : String
  euro : Bool
deriving DecidableEq, Repr

/-- Position matcher for a labeled pattern; returns the captured amount. -/
def labelAt (p : LabeledPattern) (cs : List Char) : Option String :=
  match stripCI p.label.data cs with
  | none => none
  | some cs1 =>
    let cs2 := skipSpaces (skipOptColonDash (skipSpaces cs1))
    match numAt cs2 with
    | none => none
    | some (v, n) =>
      if p.euro then
        match skipSpaces (cs2.drop n) with
        | c :: _ => if c = '€' then some v else none
        | [] => none
      else some v

/-- `re.search` for a labeled pattern: the first match in document order
wins, and its captured amount is returned. -/
def searchLabel (p : LabeledPattern) : List Char → Option String
  | [] => none
  | c :: rest =>
    match labelAt p (c :: rest) with
    | some v => some v
    | none => searchLabel p rest

/-- The ordered pattern list of lines 41-48:
`Total a pagar\s*[:\-]?\s*([0-9]+[.,][0-9]{2})`,
`TOTAL\s*[:\-]?\s*([0-9]+[.,][0-9]{2})\s*€`,
`TOTAL\s*[:\-]?\s*([0-9]+[.,][0-9]{2})`,
`TOTAL A PAGAR\s*[:\-]?\s*([0-9]+[.,][0-9]{2})`,
`Valor total\s*[:\-]?\s*([0-9]+[.,][0-9]{2})`,
`(Total)\s*[:\-]?\s*([0-9]+[.,][0-9]{2})`. -/
def patterns : List LabeledPattern :=
  [⟨"Total a pagar", false⟩, ⟨"TOTAL", true⟩, ⟨"TOTAL", false⟩,
   ⟨"TOTAL A PAGAR", false⟩, ⟨"Valor total", false⟩, ⟨"Total", false⟩]

/-- `val.replace('.', '').replace(',', '.')` (lines 57 and 67). -/
def normalizeAmount (s : String) : String :=
  String.mk ((s.data.filter (fun c => c != '.')).map (fun c => if c = ',' then '.' else c))

/-- Python `float(...)` on the normalized strings, modelled exactly over
`ℚ`: accepts `digits`, `digits.digits`, `.digits`, `digits.` (the shapes
reachable from the regexes); anything else is a parse failure, which the
source's `try/except` turns into a non-match. -/
def parseFloat (s : String) : Option ℚ :=
  let cs := s.data
  if (cs.all fun c => c.isDigit || c = '.') = true ∧ cs.count '.' ≤ 1 ∧
      (cs.any Char.isDigit) = true then
    let ip := cs.takeWhile (fun c => c != '.')
    let fp := (cs.dropWhile (fun c => c != '.')).drop 1
    some ((digitsToNat ip : ℚ) + (digitsToNat fp : ℚ) / (10 : ℚ) ^ fp.length)
  else none

/-- The labeled-pattern loop of lines 51-60: patterns are tried in order;
the first match whose captured value parses sets the total and breaks; a
match whose value fails to parse falls through to the next pattern. -/
def tryPatterns : List LabeledPattern → List Char → Option ℚ
  | [], _ => none
  | p :: ps, cs =>
    match searchLabel p cs with
    | some val =>
      match parseFloat (normalizeAmount val) with
      | some t => some t
      | none => tryPatterns ps cs
    | none => tryPatterns ps cs

/-- `extract_date_and_total` (lines 29-71): date from the first date-shaped
substring via `strptime`, total from the labeled-pattern chain with the
last-generic-number fallback of lines 63-69. -/
def extract_date_and_total (text : String) : Option Date × Option ℚ :=
  let cs := text.data
  let date :=
    match searchDate cs with
    | some s => parseDate s
    | none => none
  let total :=
    match tryPatterns patterns cs with
    | some t => some t
    | none =>
      match (findAllNums cs).getLast? with
      | some v => parseFloat (normalizeAmount v)
      | none => none
  (date, total)

/-! ### Record store (SQLite branch, lines 110-135 and the upload loop 144-169) -/

/-- A row of the `receipts` table.  The schema leaves `date` and `total`
nullable, so the row type keeps them optional; `uploaded_at` and the
autoincrement id play no role in any claim and are omitted. -/
structure Row where
  date : Option Date
  total : Option ℚ
  filename : String
deriving DecidableEq, Repr

/-- `sqlite_insert` (lines 126-129): `INSERT` appends a row. -/
def sqlite_insert (db : List Row) (r : Row) : List Row := db ++ [r]

/-- Zero-padded decimal rendering of `n` to `k` digits (most significant
first), as used by `strftime` field formatting. -/
def padNum : Nat → Nat → List Char
  | 0, _ => []
  | k + 1, n => Char.ofNat ('0'.toNat + n / 10 ^ k) :: padNum k (n % 10 ^ k)

/-- `date.strftime("%Y-%m-%d")` (line 157): the ISO-8601 date string
stored in the `date` column (`%Y`/`%m`/`%d` zero-padded as documented). -/
def dateISO (d : Date) : List Char :=
  padNum 4 d.year ++ '-' :: (padNum 2 d.month ++ '-' :: padNum 2 d.day)

/-- The `ORDER BY` sort key of a row: SQLite compares the TEXT `date`
column bytewise (all characters here are ASCII, so charwise = bytewise);
a NULL date sorts before every string. -/
def isoKey (r : Row) : List Char :=
  match r.date with
  | some d => dateISO d
  | none => []

/-- Bytewise (memcmp-style) lexicographic `≤` on character lists: the
TEXT collation used by `ORDER BY date`. -/
def lexLe : List Char → List Char → Bool
  | [], _ => true
  | _ :: _, [] => false
  | a :: as, b :: bs =>
    if a.toNat < b.toNat then true
    else if a.toNat = b.toNat then lexLe as bs
    else false

/-- Row ordering used by `sqlite_fetch_all`'s `ORDER BY date`. -/
def rowLe (a b : Row) : Prop := lexLe (isoKey a) (isoKey b) = true

instance : DecidableRel rowLe := fun a b => instDecidableEqBool _ _

/-- `sqlite_fetch_all` (lines 131-135):
`SELECT date, total, filename, uploaded_at FROM receipts ORDER BY date`,
modelled as a sort of the stored rows by the date string. -/
def listAll (db : List Row) : List Row := List.insertionSort rowLe db

/-- One iteration of the upload loop (lines 147-169): the document (given
by its source name and extracted text) is resolved; when either field is
absent it is recorded as an error and skipped, otherwise inserted. -/
def uploadStep (acc : List Row × List String) (doc : String × String) :
    List Row × List String :=
  match extract_date_and_total doc.2 with
  | (some d, some t) => (sqlite_insert acc.1 ⟨some d, some t, doc.1⟩, acc.2)
  | _ => (acc.1, acc.2 ++ [doc.1])

/-- The upload loop (lines 144-169) over a batch of documents, starting
from an empty store.  Returns the final store and the error list. -/
def processUploads (docs : List (String × String)) : List Row × List String :=
  docs.foldl uploadStep ([], [])

/-- Modelled from the spec: `deleteBySourceName(name) -> removes all
matching records` (section 4.3).  The source file has no delete helper
for the sqlite backend — only insert and fetch — so the Record Store
operation is modelled from the spec's words: it removes every record
whose source name matches. -/
def deleteBySourceName (name : String) (db : List Row) : List Row :=
  db.filter (fun r => r.filename != name)

/-- A calendar date rendered as `DD/MM/YYYY` (the format whose round-trip
through resolution the spec asserts). -/
def formatDMY (d : Date) : String :=
  String.mk (padNum 2 d.day ++ '/' :: (padNum 2 d.month ++ '/' :: padNum 4 d.year))

/-- The amount shape `[0-9]+[.,][0-9]{2}` as a whole-string predicate:
a nonempty digit run, one decimal separator, exactly two digits. -/
def isAmountShape (s : String) : Bool :=
  !(s.data.takeWhile Char.isDigit).isEmpty &&
    (match s.data.dropWhile Char.isDigit with
     | [sep, a, b] => isDecSep sep && a.isDigit && b.isDigit
     | _ => false)

/-- Chronological order on dates (year, then month, then day). -/
def chronLe (d1 d2 : Date) : Prop :=
  d1.year < d2.year ∨ (d1.year = d2.year ∧
    (d1.month < d2.month ∨ (d1.month = d2.month ∧ d1.day ≤ d2.day)))

/-- Chronological order lifted to rows (a NULL date first, as in SQLite). -/
def rowChron (a b : Row) : Prop :=
  match a.date, b.date with
  | some d1, some d2 => chronLe d1 d2
  | none, _ => True
  | some _, none => False

/-! ### Helper lemmas about the amount shape -/

theorem takeWhile_all_append {p : Char → Bool} {ds r : List Char} {x : Char}
    (hds : ∀ c ∈ ds, p c = true) (hx : p x = false) :
    (ds ++ x :: r).takeWhile p = ds ∧ (ds ++ x :: r).dropWhile p = x :: r := by
  induction ds with
  | nil => simp [List.takeWhile_cons, List.dropWhile_cons, hx]
  | cons c cs ih =>
    have hc := hds c (by simp)
    have := ih (fun c hc => hds c (by simp [hc]))
    simp [List.takeWhile_cons, List.dropWhile_cons, hc, this.1, this.2]

theorem isDecSep_not_digit {c : Char} (h : isDecSep c = true) : c.isDigit = false := by
  have : c = '.' ∨ c = ',' := by simpa [isDecSep] using h
  rcases this with h | h <;> subst h <;> decide

theorem digit_ne_dot {c : Char} (h : c.isDigit = true) : (c != '.') = true := by
  rcases hc : c == '.' with _ | _
  · simpa using hc
  · have : c = '.' := by simpa using hc
    subst this
    exact absurd h (by decide)

theorem digit_ne_comma {c : Char} (h : c.isDigit = true) : c ≠ ',' := by
  intro hc
  subst hc
  exact absurd h (by decide)

theorem numAt_shape {cs : List Char} {v : String} {n : Nat}
    (h : numAt cs = some (v, n)) :
    ∃ ds sep a b, v.data = ds ++ [sep, a, b] ∧ ds ≠ [] ∧ (∀ c ∈ ds, c.isDigit = true) ∧
      isDecSep sep = true ∧ a.isDigit = true ∧ b.isDigit = true := by
  simp only [numAt] at h
  split at h
  case h_1 sep a b tail heq =>
    split at h
    case isTrue hc =>
      simp only [Option.some.injEq, Prod.mk.injEq] at h
      refine ⟨cs.takeWhile Char.isDigit, sep, a, b, ?_, ?_, ?_, ?_, ?_, ?_⟩
      · rw [← h.1]
      · intro he
        rw [he] at hc
        simp at hc
      · exact fun c hcm => List.mem_takeWhile_imp hcm
      · simp only [Bool.and_eq_true] at hc
        exact hc.1.1.2
      · simp only [Bool.and_eq_true] at hc
        exact hc.1.2
      · simp only [Bool.and_eq_true] at hc
        exact hc.2
    case isFalse => exact absurd h (by simp)
  case h_2 => exact absurd h (by simp)

theorem isAmountShape_of_parts {v : String} {ds : List Char} {sep a b : Char}
    (hv : v.data = ds ++ [sep, a, b]) (hne : ds ≠ []) (hds : ∀ c ∈ ds, c.isDigit = true)
    (hsep : isDecSep sep = true) (ha : a.isDigit = true) (hb : b.isDigit = true) :
    isAmountShape v = true := by
  have hsplit := takeWhile_all_append (p := Char.isDigit) (r := [a, b]) (x := sep) hds
    (isDecSep_not_digit hsep)
  cases ds with
  | nil => exact absurd rfl hne
  | cons d ds' =>
    simp only [isAmountShape, hv, hsplit.1, hsplit.2]
    simp [hsep, ha, hb]

theorem numAt_isAmountShape {cs : List Char} {v : String} {n : Nat}
    (h : numAt cs = some (v, n)) : isAmountShape v = true := by
  obtain ⟨ds, sep, a, b, hv, hne, hds, hsep, ha, hb⟩ := numAt_shape h
  exact isAmountShape_of_parts hv hne hds hsep ha hb

theorem dropWhile_isSuffix (p : Char → Bool) : ∀ cs : List Char, cs.dropWhile p <:+ cs
  | [] => List.suffix_refl []
  | c :: cs => by
    rw [List.dropWhile_cons]
    split
    · exact (dropWhile_isSuffix p cs).trans (List.suffix_cons c cs)
    · exact List.suffix_refl _

theorem skipSpaces_isSuffix (cs : List Char) : skipSpaces cs <:+ cs :=
  dropWhile_isSuffix isPySpace cs

theorem skipOptColonDash_isSuffix : ∀ cs : List Char, skipOptColonDash cs <:+ cs
  | [] => List.suffix_refl []
  | c :: cs => by
    rw [skipOptColonDash]
    split
    · exact List.suffix_cons c cs
    · exact List.suffix_refl _

theorem stripCI_isSuffix : ∀ {ls cs cs' : List Char}, stripCI ls cs = some cs' → cs' <:+ cs
  | [], cs, cs', h => by
    simp only [stripCI, Option.some.injEq] at h
    rw [h]
  | _ :: _, [], cs', h => by simp [stripCI] at h
  | l :: ls, c :: cs, cs', h => by
    rw [stripCI] at h
    split at h
    · exact (stripCI_isSuffix h).trans (List.suffix_cons c cs)
    · exact absurd h (by simp)

theorem labelAt_numAt {p : LabeledPattern} {cs : List Char} {v : String}
    (h : labelAt p cs = some v) :
    ∃ cs2, cs2 <:+ cs ∧ ∃ n, numAt cs2 = some (v, n) := by
  simp only [labelAt] at h
  split at h
  · exact absurd h (by simp)
  case h_2 cs1 heq1 =>
    split at h
    · exact absurd h (by simp)
    case h_2 v' n heq2 =>
      refine ⟨skipSpaces (skipOptColonDash (skipSpaces cs1)), ?_, n, ?_⟩
      · exact ((skipSpaces_isSuffix _).trans
          ((skipOptColonDash_isSuffix _).trans (skipSpaces_isSuffix cs1))).trans
          (stripCI_isSuffix heq1)
      · rw [heq2]
        split at h
        · split at h
          · split at h
            · simp only [Option.some.injEq] at h
              rw [h]
            · exact absurd h (by simp)
          · exact absurd h (by simp)
        · simp only [Option.some.injEq] at h
          rw [h]

theorem labelAt_isAmountShape {p : LabeledPattern} {cs : List Char} {v : String}
    (h : labelAt p cs = some v) : isAmountShape v = true := by
  obtain ⟨cs2, hsuf, n, hn⟩ := labelAt_numAt h
  exact numAt_isAmountShape hn

theorem searchLabel_isAmountShape {p : LabeledPattern} {v : String} :
    ∀ {cs : List Char}, searchLabel p cs = some v → isAmountShape v = true
  | [], h => absurd h (by simp [searchLabel])
  | c :: rest, h => by
    rw [searchLabel] at h
    split at h
    case h_1 v' heq =>
      cases h
      exact labelAt_isAmountShape heq
    case h_2 => exact searchLabel_isAmountShape h

theorem findAllNumsAux_exists_numAt {v : String} :
    ∀ (fuel : Nat) (cs : List Char), v ∈ findAllNumsAux fuel cs →
      ∃ cs' n, numAt cs' = some (v, n)
  | 0, _, h => absurd h (by simp [findAllNumsAux])
  | _ + 1, [], h => absurd h (by simp [findAllNumsAux])
  | fuel + 1, c :: rest, h => by
    rw [findAllNumsAux] at h
    split at h
    next s n heq =>
      rcases List.mem_cons.mp h with h1 | h1
      · subst h1
        exact ⟨c :: rest, n, heq⟩
      · exact findAllNumsAux_exists_numAt fuel _ h1
    next => exact findAllNumsAux_exists_numAt fuel _ h

theorem findAllNums_exists_numAt {v : String} {cs : List Char}
    (h : v ∈ findAllNums cs) : ∃ cs' n, numAt cs' = some (v, n) :=
  findAllNumsAux_exists_numAt cs.length cs h

theorem findAllNums_isAmountShape {v : String} {cs : List Char}
    (h : v ∈ findAllNums cs) : isAmountShape v = true := by
  obtain ⟨cs', n, hn⟩ := findAllNums_exists_numAt h
  exact numAt_isAmountShape hn

theorem all_digit_map_comma {ds : List Char} (hds : ∀ c ∈ ds, c.isDigit = true) :
    ds.map (fun c => if c = ',' then '.' else c) = ds := by
  induction ds with
  | nil => rfl
  | cons c cs ih =>
    have hc := hds c (by simp)
    have : c ≠ ',' := digit_ne_comma hc
    simp [this, ih (fun c hcm => hds c (by simp [hcm]))]

theorem all_digit_filter_dot {ds : List Char} (hds : ∀ c ∈ ds, c.isDigit = true) :
    ds.filter (fun c => c != '.') = ds :=
  List.filter_eq_self.mpr fun c hc => digit_ne_dot (hds c hc)

theorem all_digit_count_dot {ds : List Char} (hds : ∀ c ∈ ds, c.isDigit = true) :
    ds.count '.' = 0 := by
  rw [List.count_eq_zero]
  intro hmem
  have := hds '.' hmem
  exact absurd this (by decide)

theorem digit_ne_dot' {c : Char} (h : c.isDigit = true) : c ≠ '.' := by
  intro hc
  subst hc
  exact absurd h (by decide)

theorem parseFloat_isSome_of_cond {s : String}
    (hcond : (s.data.all fun c => c.isDigit || c = '.') = true ∧
      s.data.count '.' ≤ 1 ∧ (s.data.any Char.isDigit) = true) :
    (parseFloat s).isSome = true := by
  have : ∃ q, parseFloat s = some q := by
    simp only [parseFloat]
    rw [if_pos hcond]
    exact ⟨_, rfl⟩
  obtain ⟨q, hq⟩ := this
  simp [hq]

theorem parseFloat_all_digits {xs : List Char} (hxs : ∀ c ∈ xs, c.isDigit = true)
    (hne : xs ≠ []) : (parseFloat (String.mk xs)).isSome = true := by
  apply parseFloat_isSome_of_cond
  refine ⟨List.all_eq_true.mpr fun c hc => by simp [hxs c hc], ?_, ?_⟩
  · rw [all_digit_count_dot hxs]
    omega
  · cases xs with
    | nil => exact absurd rfl hne
    | cons c cs => exact List.any_eq_true.mpr ⟨c, by simp, hxs c (by simp)⟩

theorem parseFloat_digits_dot {xs ys : List Char}
    (hxs : ∀ c ∈ xs, c.isDigit = true) (hys : ∀ c ∈ ys, c.isDigit = true)
    (hne : ys ≠ []) : (parseFloat (String.mk (xs ++ '.' :: ys))).isSome = true := by
  apply parseFloat_isSome_of_cond
  refine ⟨?_, ?_, ?_⟩
  · refine List.all_eq_true.mpr fun c hc => ?_
    rcases List.mem_append.mp hc with hc | hc
    · simp [hxs c hc]
    · rcases List.mem_cons.mp hc with hc | hc
      · simp [hc]
      · simp [hys c hc]
  · rw [List.count_append, all_digit_count_dot hxs, List.count_cons,
      all_digit_count_dot hys]
    simp
  · refine List.any_eq_true.mpr ?_
    cases ys with
    | nil => exact absurd rfl hne
    | cons y ys' => exact ⟨y, by simp, hys y (by simp)⟩

/-- The normalized form of a shaped amount always parses: the key fact
making the `except: continue` branches of lines 56-60 and 66-69 dead. -/
theorem parseFloat_normalize_parts {v : String} {ds : List Char} {sep a b : Char}
    (hv : v.data = ds ++ [sep, a, b]) (hds : ∀ c ∈ ds, c.isDigit = true)
    (hsep : isDecSep sep = true) (ha : a.isDigit = true) (hb : b.isDigit = true) :
    (parseFloat (normalizeAmount v)).isSome = true := by
  have hsep' : sep = '.' ∨ sep = ',' := by simpa [isDecSep] using hsep
  have hfa : (a != '.') = true := digit_ne_dot ha
  have hfb : (b != '.') = true := digit_ne_dot hb
  have habdig : ∀ c ∈ [a, b], c.isDigit = true := by
    intro c hc
    rcases List.mem_cons.mp hc with hc | hc
    · rw [hc]; exact ha
    · rcases List.mem_cons.mp hc with hc | hc
      · rw [hc]; exact hb
      · cases hc
  rcases hsep' with h1 | h1 <;> subst h1
  · have hnorm : normalizeAmount v = String.mk (ds ++ [a, b]) := by
      simp only [normalizeAmount, hv, List.filter_append, all_digit_filter_dot hds,
        List.map_append, all_digit_map_comma hds, List.filter_cons, List.filter_nil,
        List.map_cons, List.map_nil]
      simp [hfa, hfb, digit_ne_comma ha, digit_ne_comma hb]
    rw [hnorm]
    refine parseFloat_all_digits ?_ (by simp)
    intro c hc
    rcases List.mem_append.mp hc with hc | hc
    · exact hds c hc
    · exact habdig c hc
  · have hnorm : normalizeAmount v = String.mk (ds ++ '.' :: [a, b]) := by
      simp only [normalizeAmount, hv, List.filter_append, all_digit_filter_dot hds,
        List.map_append, all_digit_map_comma hds, List.filter_cons, List.filter_nil,
        List.map_cons, List.map_nil]
      simp [hfa, hfb, digit_ne_comma ha, digit_ne_comma hb]
    rw [hnorm]
    exact parseFloat_digits_dot hds habdig (by simp)

theorem numAt_parse_isSome {cs : List Char} {v : String} {n : Nat}
    (h : numAt cs = some (v, n)) : (parseFloat (normalizeAmount v)).isSome = true := by
  obtain ⟨ds, sep, a, b, hv, _, hds, hsep, ha, hb⟩ := numAt_shape h
  exact parseFloat_normalize_parts hv hds hsep ha hb

theorem searchLabel_exists_labelAt {p : LabeledPattern} {v : String} :
    ∀ {cs : List Char}, searchLabel p cs = some v →
      ∃ cs', cs' <:+ cs ∧ labelAt p cs' = some v
  | [], h => absurd h (by simp [searchLabel])
  | c :: rest, h => by
    rw [searchLabel] at h
    split at h
    next v' heq =>
      cases h
      exact ⟨c :: rest, List.suffix_refl _, heq⟩
    next =>
      obtain ⟨cs', hsuf, hla⟩ := searchLabel_exists_labelAt h
      exact ⟨cs', hsuf.trans (List.suffix_cons c rest), hla⟩

theorem searchLabel_parse_isSome {p : LabeledPattern} {cs : List Char} {v : String}
    (h : searchLabel p cs = some v) : (parseFloat (normalizeAmount v)).isSome = true := by
  obtain ⟨cs', hsuf', h'⟩ := searchLabel_exists_labelAt h
  obtain ⟨cs2, hsuf2, n, hn⟩ := labelAt_numAt h'
  exact numAt_parse_isSome hn

theorem findAllNums_parse_isSome {cs : List Char} {v : String}
    (h : v ∈ findAllNums cs) : (parseFloat (normalizeAmount v)).isSome = true := by
  obtain ⟨cs', n, hn⟩ := findAllNums_exists_numAt h
  exact numAt_parse_isSome hn

/-! ### The labeled-pattern loop -/

theorem tryPatterns_eq_none {ps : List LabeledPattern} {cs : List Char}
    (h : ∀ p ∈ ps, searchLabel p cs = none) : tryPatterns ps cs = none := by
  induction ps with
  | nil => rfl
  | cons p ps ih =>
    have hp := h p (by simp)
    simp only [tryPatterns, hp]
    exact ih fun q hq => h q (by simp [hq])

theorem tryPatterns_first :
    ∀ (ps : List LabeledPattern) (cs : List Char) (i : Nat) (hi : i < ps.length)
      (v : String),
      (∀ j (hj : j < i), searchLabel (ps.get ⟨j, Nat.lt_trans hj hi⟩) cs = none) →
      searchLabel (ps.get ⟨i, hi⟩) cs = some v →
      tryPatterns ps cs = parseFloat (normalizeAmount v)
  | [], _, i, hi, _, _, _ => absurd hi (by simp)
  | p :: ps, cs, 0, _, v, _, hmatch => by
    simp only [List.get] at hmatch
    obtain ⟨q, hq⟩ := Option.isSome_iff_exists.mp (searchLabel_parse_isSome hmatch)
    simp only [tryPatterns, hmatch, hq]
  | p :: ps, cs, i + 1, hi, v, hprev, hmatch => by
    have h0 : searchLabel p cs = none := hprev 0 (Nat.succ_pos i)
    simp only [tryPatterns, h0]
    exact tryPatterns_first ps cs i (Nat.lt_of_succ_lt_succ hi) v
      (fun j hj => hprev (j + 1) (Nat.succ_lt_succ hj)) hmatch

theorem tryPatterns_some :
    ∀ {ps : List LabeledPattern} {cs : List Char} {t : ℚ}, tryPatterns ps cs = some t →
      ∃ p ∈ ps, ∃ v, searchLabel p cs = some v ∧ parseFloat (normalizeAmount v) = some t := by
  intro ps
  induction ps with
  | nil => intro cs t h; exact absurd h (by simp [tryPatterns])
  | cons p ps ih =>
    intro cs t h
    rw [tryPatterns] at h
    split at h
    next val heq =>
      split at h
      next t' heq2 =>
        cases h
        exact ⟨p, by simp, val, heq, heq2⟩
      next =>
        obtain ⟨q, hq, w, hw, hp⟩ := ih h
        exact ⟨q, by simp [hq], w, hw, hp⟩
    next =>
      obtain ⟨q, hq, w, hw, hp⟩ := ih h
      exact ⟨q, by simp [hq], w, hw, hp⟩

theorem tryPatterns_isSome_of_match :
    ∀ {ps : List LabeledPattern} {cs : List Char},
      (∃ p ∈ ps, (searchLabel p cs).isSome = true) → (tryPatterns ps cs).isSome = true := by
  intro ps
  induction ps with
  | nil =>
    rintro cs ⟨p, hp, _⟩
    simp at hp
  | cons p ps ih =>
    rintro cs ⟨q, hq, hsome⟩
    rw [tryPatterns]
    rcases hsl : searchLabel p cs with _ | v
    · rcases List.mem_cons.mp hq with h1 | h1
      · subst h1
        rw [hsl] at hsome
        simp at hsome
      · exact ih ⟨q, h1, hsome⟩
    · obtain ⟨t, ht⟩ := Option.isSome_iff_exists.mp (searchLabel_parse_isSome hsl)
      simp [ht]

theorem parseFloat_nonneg {s : String} {q : ℚ} (h : parseFloat s = some q) : 0 ≤ q := by
  simp only [parseFloat] at h
  split at h
  · simp only [Option.some.injEq] at h
    rw [← h]
    have h1 : (0 : ℚ) ≤ (digitsToNat (s.data.takeWhile fun c => c != '.') : ℚ) :=
      Nat.cast_nonneg _
    have h2 : (0 : ℚ) ≤ (digitsToNat ((s.data.dropWhile fun c => c != '.').drop 1) : ℚ) /
        (10 : ℚ) ^ ((s.data.dropWhile fun c => c != '.').drop 1).length :=
      div_nonneg (Nat.cast_nonneg _) (pow_nonneg (by norm_num) _)
    exact add_nonneg h1 h2
  · exact absurd h (by simp)

theorem tryPatterns_nonneg {ps : List LabeledPattern} {cs : List Char} {q : ℚ}
    (h : tryPatterns ps cs = some q) : 0 ≤ q := by
  obtain ⟨p, hp, v, hv, hparse⟩ := tryPatterns_some h
  exact parseFloat_nonneg hparse

theorem extract_total_nonneg {text : String} {q : ℚ}
    (h : (extract_date_and_total text).2 = some q) : 0 ≤ q := by
  simp only [extract_date_and_total] at h
  split at h
  next t heq =>
    cases h
    exact tryPatterns_nonneg heq
  next =>
    split at h
    next v heq2 => exact parseFloat_nonneg h
    next => exact absurd h (by simp)

/-- Evaluation helper for `parseFloat`: the returned rational is integer
part plus fractional part over the matching power of ten. -/
theorem parseFloat_eq_of (s : String) (a b k : Nat)
    (hcond : (s.data.all fun c => c.isDigit || c = '.') = true ∧
      s.data.count '.' ≤ 1 ∧ (s.data.any Char.isDigit) = true)
    (ha : digitsToNat (s.data.takeWhile fun c => c != '.') = a)
    (hb : digitsToNat ((s.data.dropWhile fun c => c != '.').drop 1) = b)
    (hk : ((s.data.dropWhile fun c => c != '.').drop 1).length = k) :
    parseFloat s = some ((a : ℚ) + (b : ℚ) / (10 : ℚ) ^ k) := by
  simp only [parseFloat]
  rw [if_pos hcond, ha, hb, hk]

/-! ### Claim theorems -/

/-- C1: total resolution tries the labeled patterns strictly in priority
order; the first pattern that matches anywhere in the text determines the
total from (the captured value of) its first match. -/
theorem claim_C1 (text : String) (i : Nat) (hi : i < patterns.length) (v : String)
    (hprev : ∀ j (hj : j < i),
      searchLabel (patterns.get ⟨j, Nat.lt_trans hj hi⟩) text.data = none)
    (hmatch : searchLabel (patterns.get ⟨i, hi⟩) text.data = some v) :
    (extract_date_and_total text).2 = parseFloat (normalizeAmount v) := by
  have h := tryPatterns_first patterns text.data i hi v hprev hmatch
  obtain ⟨q, hq⟩ := Option.isSome_iff_exists.mp (searchLabel_parse_isSome hmatch)
  simp only [extract_date_and_total, h, hq]

/-- C1 witness: with both a labeled "Total a pagar 12,34" phrase and an
unrelated trailing "99,99", the total resolves to 12.34, not 99.99. -/
theorem claim_C1_witness :
    (extract_date_and_total "Fatura: Total a pagar 12,34 obrigado 99,99").2 =
      some (1234 / 100 : ℚ) := by
  have h := claim_C1 "Fatura: Total a pagar 12,34 obrigado 99,99" 0 (by decide) "12,34"
    (fun j hj => absurd hj (Nat.not_lt_zero j)) (by decide)
  rw [h, show normalizeAmount "12,34" = "12.34" from by decide,
    parseFloat_eq_of "12.34" 12 34 2 ⟨by decide, by decide, by decide⟩
      (by decide) (by decide) (by decide)]
  norm_num

/-- C2: when no labeled pattern matches, the total falls back to the last
occurrence (in document order) of the generic decimal-amount shape. -/
theorem claim_C2 (text : String) (v : String)
    (hnol : ∀ p ∈ patterns, searchLabel p text.data = none)
    (hlast : (findAllNums text.data).getLast? = some v) :
    (extract_date_and_total text).2 = parseFloat (normalizeAmount v) := by
  simp only [extract_date_and_total, tryPatterns_eq_none hnol, hlast]

/-- C2 witness: with no labeled phrase and the decimal-shaped substrings
"3,50", "1,20", "9,99" in that order, the total resolves to 9.99. -/
theorem claim_C2_witness :
    (extract_date_and_total "sem etiqueta 3,50 depois 1,20 e fim 9,99").2 =
      some (999 / 100 : ℚ) := by
  have h := claim_C2 "sem etiqueta 3,50 depois 1,20 e fim 9,99" "9,99" (by decide) (by decide)
  rw [h, show normalizeAmount "9,99" = "9.99" from by decide,
    parseFloat_eq_of "9.99" 9 99 2 ⟨by decide, by decide, by decide⟩
      (by decide) (by decide) (by decide)]
  norm_num

/-- C7: when the first date-shaped substring is not a valid calendar date,
the date resolves to absent rather than failing. -/
theorem claim_C7 (text s : String)
    (h1 : searchDate text.data = some s) (h2 : parseDate s = none) :
    (extract_date_and_total text).1 = none := by
  simp only [extract_date_and_total, h1, h2]

/-- C7 witness: the input "32/13/2024" resolves date to absent. -/
theorem claim_C7_witness :
    (extract_date_and_total "32/13/2024").1 = none :=
  claim_C7 "32/13/2024" "32/13/2024" (by decide) (by decide)

/-- C9 (spec-modelled delete): after `deleteBySourceName name`, no record
with that source name appears in `listAll` output. -/
theorem claim_C9 (db : List Row) (name : String) :
    ∀ r ∈ listAll (deleteBySourceName name db), r.filename ≠ name := by
  intro r hr
  have hmem : r ∈ deleteBySourceName name db := by
    simpa [listAll] using hr
  have := List.of_mem_filter hmem
  simpa using this

/-- C9 witness at a concrete store: deleting "x.pdf" leaves only the
"a.pdf" record, whose name differs from "x.pdf". -/
theorem claim_C9_witness :
    (Row.mk (some (Date.mk 2024 5 12)) none "a.pdf") ∈
        listAll (deleteBySourceName "x.pdf"
          [Row.mk (some (Date.mk 2024 5 12)) none "a.pdf",
           Row.mk (some (Date.mk 2024 5 13)) none "x.pdf"]) ∧
      (Row.mk (some (Date.mk 2024 5 12)) none "a.pdf").filename ≠ "x.pdf" :=
  ⟨by decide,
    claim_C9 [Row.mk (some (Date.mk 2024 5 12)) none "a.pdf",
        Row.mk (some (Date.mk 2024 5 13)) none "x.pdf"] "x.pdf"
      (Row.mk (some (Date.mk 2024 5 12)) none "a.pdf") (by decide)⟩

/-! ### Zero-padded decimal rendering (C3, C8) -/

theorem charOfNat_digit : ∀ i, i < 10 → (Char.ofNat (48 + i)).isDigit = true := by
  decide

theorem charOfNat_toNat : ∀ i, i < 10 → (Char.ofNat (48 + i)).toNat = 48 + i := by
  decide

theorem zero_toNat_add (i : Nat) : '0'.toNat + i = 48 + i := rfl

theorem padNum_all_digit :
    ∀ (k n : Nat), n < 10 ^ k → ∀ c ∈ padNum k n, c.isDigit = true
  | 0, n, _, c, hc => absurd hc (by simp [padNum])
  | k + 1, n, h, c, hc => by
    rw [padNum] at hc
    rcases List.mem_cons.mp hc with h1 | h1
    · subst h1
      refine charOfNat_digit _ ?_
      have h10 : 0 < 10 ^ k := Nat.pos_pow_of_pos k (by omega)
      rw [Nat.div_lt_iff_lt_mul h10]
      have hps := pow_succ 10 k
      omega
    · exact padNum_all_digit k (n % 10 ^ k) (Nat.mod_lt n (Nat.pos_pow_of_pos k (by omega)))
        c h1

theorem padNum_two (n : Nat) :
    padNum 2 n = [Char.ofNat (48 + n / 10), Char.ofNat (48 + n % 10)] := by
  simp [padNum, pow_one, pow_zero, Nat.div_one, zero_toNat_add]

theorem padNum_four (n : Nat) :
    padNum 4 n = [Char.ofNat (48 + n / 1000), Char.ofNat (48 + n % 1000 / 100),
      Char.ofNat (48 + n % 1000 % 100 / 10), Char.ofNat (48 + n % 1000 % 100 % 10)] := by
  have h3 : (10 : Nat) ^ 3 = 1000 := by norm_num
  have h2 : (10 : Nat) ^ 2 = 100 := by norm_num
  simp [padNum, h3, h2, pow_one, pow_zero, Nat.div_one, zero_toNat_add]

/-! ### Date round-trip machinery (C3) -/

theorem daysInMonth_le (y m : Nat) : daysInMonth y m ≤ 31 := by
  unfold daysInMonth
  split
  · split <;> omega
  · split <;> omega

theorem digit_ne_dash {c : Char} (h : c.isDigit = true) : c ≠ '-' := by
  intro hc
  subst hc
  exact absurd h (by decide)

theorem map_nodash {l : List Char} (h : ∀ c ∈ l, c ≠ '-') :
    l.map (fun c => if c = '-' then '/' else c) = l := by
  induction l with
  | nil => rfl
  | cons c cs ih =>
    have hc := h c (by simp)
    simp [hc, ih fun x hx => h x (by simp [hx])]

theorem digitVal_charOfNat {i : Nat} (h : i < 10) :
    digitVal (Char.ofNat (48 + i)) = i := by
  unfold digitVal
  rw [charOfNat_toNat i h]
  have h0 : '0'.toNat = 48 := rfl
  omega

theorem dateAt_cons_nondigit {c : Char} {xs : List Char} (h : c.isDigit = false) :
    dateAt (c :: xs) = none := by
  simp [dateAt, dateShape, matchSeq, h]

theorem searchDate_prepend :
    ∀ {p : List Char}, (∀ c ∈ p, c.isDigit = false) →
      ∀ rest, searchDate (p ++ rest) = searchDate rest
  | [], _, rest => rfl
  | c :: p', h, rest => by
    have hc := h c (by simp)
    simp only [List.cons_append, searchDate, dateAt_cons_nondigit hc]
    exact searchDate_prepend (fun x hx => h x (by simp [hx])) rest

theorem dateAt_format (d : Date) (hd : validDate d) (s : List Char) :
    dateAt ((formatDMY d).data ++ s) = some (formatDMY d) := by
  obtain ⟨hm1, hm2, hd1, hd2, hy1, hy2⟩ := hd
  have hdm := daysInMonth_le d.year d.month
  have hA1 : (Char.ofNat (48 + d.day / 10)).isDigit = true := charOfNat_digit _ (by omega)
  have hA2 : (Char.ofNat (48 + d.day % 10)).isDigit = true := charOfNat_digit _ (by omega)
  have hB1 : (Char.ofNat (48 + d.month / 10)).isDigit = true := charOfNat_digit _ (by omega)
  have hB2 : (Char.ofNat (48 + d.month % 10)).isDigit = true := charOfNat_digit _ (by omega)
  have hC1 : (Char.ofNat (48 + d.year / 1000)).isDigit = true := charOfNat_digit _ (by omega)
  have hC2 : (Char.ofNat (48 + d.year % 1000 / 100)).isDigit = true :=
    charOfNat_digit _ (by omega)
  have hC3 : (Char.ofNat (48 + d.year % 1000 % 100 / 10)).isDigit = true :=
    charOfNat_digit _ (by omega)
  have hC4 : (Char.ofNat (48 + d.year % 1000 % 100 % 10)).isDigit = true :=
    charOfNat_digit _ (by omega)
  have hform : (formatDMY d).data ++ s =
      Char.ofNat (48 + d.day / 10) :: Char.ofNat (48 + d.day % 10) :: '/' ::
      Char.ofNat (48 + d.month / 10) :: Char.ofNat (48 + d.month % 10) :: '/' ::
      Char.ofNat (48 + d.year / 1000) :: Char.ofNat (48 + d.year % 1000 / 100) ::
      Char.ofNat (48 + d.year % 1000 % 100 / 10) ::
      Char.ofNat (48 + d.year % 1000 % 100 % 10) :: s := by
    simp [formatDMY, padNum_two, padNum_four]
  have hms : matchSeq dateShape
      (Char.ofNat (48 + d.day / 10) :: Char.ofNat (48 + d.day % 10) :: '/' ::
       Char.ofNat (48 + d.month / 10) :: Char.ofNat (48 + d.month % 10) :: '/' ::
       Char.ofNat (48 + d.year / 1000) :: Char.ofNat (48 + d.year % 1000 / 100) ::
       Char.ofNat (48 + d.year % 1000 % 100 / 10) ::
       Char.ofNat (48 + d.year % 1000 % 100 % 10) :: s) =
      some [Char.ofNat (48 + d.day / 10), Char.ofNat (48 + d.day % 10), '/',
        Char.ofNat (48 + d.month / 10), Char.ofNat (48 + d.month % 10), '/',
        Char.ofNat (48 + d.year / 1000), Char.ofNat (48 + d.year % 1000 / 100),
        Char.ofNat (48 + d.year % 1000 % 100 / 10),
        Char.ofNat (48 + d.year % 1000 % 100 % 10)] := by
    simp [matchSeq, dateShape, hA1, hA2, hB1, hB2, hC1, hC2, hC3, hC4, isDateSep]
  rw [dateAt, hform, hms]
  simp [formatDMY, padNum_two, padNum_four]

theorem searchDate_format (d : Date) (hd : validDate d) (s : List Char) :
    searchDate ((formatDMY d).data ++ s) = some (formatDMY d) := by
  have hda := dateAt_format d hd s
  revert hda
  simp only [formatDMY, padNum_two, padNum_four, List.cons_append, List.nil_append]
  intro hda
  simp only [searchDate, hda]

theorem parseDate_format (d : Date) (hd : validDate d) :
    parseDate (formatDMY d) = some d := by
  obtain ⟨hm1, hm2, hdl, hdu, hy1, hy2⟩ := hd
  have hdm := daysInMonth_le d.year d.month
  have hfmt : (formatDMY d).data =
      [Char.ofNat (48 + d.day / 10), Char.ofNat (48 + d.day % 10), '/',
       Char.ofNat (48 + d.month / 10), Char.ofNat (48 + d.month % 10), '/',
       Char.ofNat (48 + d.year / 1000), Char.ofNat (48 + d.year % 1000 / 100),
       Char.ofNat (48 + d.year % 1000 % 100 / 10),
       Char.ofNat (48 + d.year % 1000 % 100 % 10)] := by
    simp [formatDMY, padNum_two, padNum_four]
  have hnodash : ∀ c ∈ (formatDMY d).data, c ≠ '-' := by
    intro c hc
    rw [hfmt] at hc
    simp only [List.mem_cons, List.not_mem_nil, or_false] at hc
    rcases hc with h | h | h | h | h | h | h | h | h | h <;> subst h <;>
      first
        | decide
        | exact digit_ne_dash (charOfNat_digit _ (by omega))
  rw [parseDate, map_nodash hnodash, hfmt]
  have hA1 : (Char.ofNat (48 + d.day / 10)).isDigit = true := charOfNat_digit _ (by omega)
  have hA2 : (Char.ofNat (48 + d.day % 10)).isDigit = true := charOfNat_digit _ (by omega)
  have hB1 : (Char.ofNat (48 + d.month / 10)).isDigit = true := charOfNat_digit _ (by omega)
  have hB2 : (Char.ofNat (48 + d.month % 10)).isDigit = true := charOfNat_digit _ (by omega)
  have hC1 : (Char.ofNat (48 + d.year / 1000)).isDigit = true := charOfNat_digit _ (by omega)
  have hC2 : (Char.ofNat (48 + d.year % 1000 / 100)).isDigit = true :=
    charOfNat_digit _ (by omega)
  have hC3 : (Char.ofNat (48 + d.year % 1000 % 100 / 10)).isDigit = true :=
    charOfNat_digit _ (by omega)
  have hC4 : (Char.ofNat (48 + d.year % 1000 % 100 % 10)).isDigit = true :=
    charOfNat_digit _ (by omega)
  have hv1 := digitVal_charOfNat (show d.day / 10 < 10 by omega)
  have hv2 := digitVal_charOfNat (show d.day % 10 < 10 by omega)
  have hv3 := digitVal_charOfNat (show d.month / 10 < 10 by omega)
  have hv4 := digitVal_charOfNat (show d.month % 10 < 10 by omega)
  have hv5 := digitVal_charOfNat (show d.year / 1000 < 10 by omega)
  have hv6 := digitVal_charOfNat (show d.year % 1000 / 100 < 10 by omega)
  have hv7 := digitVal_charOfNat (show d.year % 1000 % 100 / 10 < 10 by omega)
  have hv8 := digitVal_charOfNat (show d.year % 1000 % 100 % 10 < 10 by omega)
  simp only [hA1, hA2, hB1, hB2, hC1, hC2, hC3, hC4, hv1, hv2, hv3, hv4, hv5, hv6, hv7,
    hv8, Bool.and_true, Bool.true_and, if_true, and_true, true_and]
  have hday : 10 * (d.day / 10) + d.day % 10 = d.day := by omega
  have hmon : 10 * (d.month / 10) + d.month % 10 = d.month := by omega
  have hyear : 1000 * (d.year / 1000) + 100 * (d.year % 1000 / 100) +
      10 * (d.year % 1000 % 100 / 10) + d.year % 1000 % 100 % 10 = d.year := by omega
  simp only [hday, hmon, hyear]
  rw [if_pos]
  · rw [if_pos]
    exact ⟨hm1, hm2, hdl, hdu, hy1, hy2⟩
  · simp

/-! ### No-amount texts (C6) -/

theorem findAllNumsAux_eq_nil :
    ∀ (fuel : Nat) (cs : List Char), (∀ i, numAt (cs.drop i) = none) →
      findAllNumsAux fuel cs = []
  | 0, _, _ => rfl
  | _ + 1, [], _ => rfl
  | fuel + 1, c :: rest, h => by
    rw [findAllNumsAux]
    have h0 := h 0
    rw [List.drop_zero] at h0
    rw [h0]
    exact findAllNumsAux_eq_nil fuel rest fun i => by
      have := h (i + 1)
      rwa [List.drop_succ_cons] at this

theorem numAt_none_of_findAllNumsAux_nil :
    ∀ (fuel : Nat) (cs : List Char), cs.length ≤ fuel → findAllNumsAux fuel cs = [] →
      ∀ i, numAt (cs.drop i) = none
  | 0, cs, hle, _, i => by
    have : cs = [] := List.length_eq_zero.mp (Nat.le_zero.mp hle)
    subst this
    rw [List.drop_nil]
    rfl
  | _ + 1, [], _, _, i => by
    rw [List.drop_nil]
    rfl
  | fuel + 1, c :: rest, hle, h, i => by
    rw [findAllNumsAux] at h
    rcases hnum : numAt (c :: rest) with _ | ⟨s, n⟩
    · rw [hnum] at h
      cases i with
      | zero => rw [List.drop_zero]; exact hnum
      | succ i =>
        rw [List.drop_succ_cons]
        exact numAt_none_of_findAllNumsAux_nil fuel rest
          (by simpa [Nat.succ_le_succ_iff] using hle) h i
    · rw [hnum] at h
      exact absurd h (by simp)

theorem findAllNums_nil_numAt {cs : List Char} (h : findAllNums cs = []) :
    ∀ i, numAt (cs.drop i) = none :=
  numAt_none_of_findAllNumsAux_nil cs.length cs (le_refl _) h

/-! ### Upload-loop invariants (C5) -/

theorem uploadStep_mem {acc : List Row × List String} {doc : String × String} {r : Row}
    (hr : r ∈ (uploadStep acc doc).1) :
    r ∈ acc.1 ∨ ∃ d t, extract_date_and_total doc.2 = (some d, some t) ∧
      r = ⟨some d, some t, doc.1⟩ := by
  unfold uploadStep at hr
  rcases hx : extract_date_and_total doc.2 with ⟨od, ot⟩
  rw [hx] at hr
  rcases od with _ | d <;> rcases ot with _ | t
  · exact Or.inl hr
  · exact Or.inl hr
  · exact Or.inl hr
  · replace hr : r ∈ acc.1 ++ [⟨some d, some t, doc.1⟩] := hr
    rcases List.mem_append.mp hr with h1 | h1
    · exact Or.inl h1
    · right
      exact ⟨d, t, rfl, by simpa using h1⟩

theorem foldl_uploads_mem :
    ∀ (docs : List (String × String)) (acc : List Row × List String) (r : Row),
      r ∈ (docs.foldl uploadStep acc).1 →
      r ∈ acc.1 ∨ ∃ d t text, extract_date_and_total text = (some d, some t) ∧
        r.date = some d ∧ r.total = some t
  | [], acc, r, hr => Or.inl hr
  | doc :: docs, acc, r, hr => by
    rw [List.foldl_cons] at hr
    rcases foldl_uploads_mem docs (uploadStep acc doc) r hr with h1 | h1
    · rcases uploadStep_mem h1 with h2 | h2
      · exact Or.inl h2
      · obtain ⟨d, t, hx, hre⟩ := h2
        exact Or.inr ⟨d, t, doc.2, hx, by rw [hre], by rw [hre]⟩
    · exact Or.inr h1

/-! ### Remaining claim theorems (first group) -/

/-- C6: `extract_date_and_total` is a total Lean function (it never
fails by construction); on a text with no decimal-amount-shaped substring
anywhere (no position matches `[0-9]+[.,][0-9]{2}`), the total resolves
to absent. -/
theorem claim_C6 (text : String) (h : ∀ i, numAt (text.data.drop i) = none) :
    (extract_date_and_total text).2 = none := by
  have hfan : findAllNums text.data = [] := findAllNumsAux_eq_nil _ _ h
  have hnol : ∀ p ∈ patterns, searchLabel p text.data = none := by
    intro p hp
    rcases hsl : searchLabel p text.data with _ | v
    · rfl
    · exfalso
      obtain ⟨cs', hsuf, hla⟩ := searchLabel_exists_labelAt hsl
      obtain ⟨cs2, hsuf2, n, hnum⟩ := labelAt_numAt hla
      obtain ⟨t, ht⟩ := hsuf2.trans hsuf
      have hnone : numAt (text.data.drop t.length) = none := h t.length
      rw [← ht, List.drop_left] at hnone
      rw [hnone] at hnum
      cases hnum
  simp only [extract_date_and_total, tryPatterns_eq_none hnol, hfan, List.getLast?_nil]

/-- C6 witness: a text with no decimal-shaped substring resolves total to
absent. -/
theorem claim_C6_witness :
    (extract_date_and_total "Obrigado pela sua visita").2 = none :=
  claim_C6 "Obrigado pela sua visita" (findAllNums_nil_numAt (by decide))

/-- C10 (implicit): a captured value group of any of the six labeled
patterns necessarily has the shape `[0-9]+[.,][0-9]{2}` and its
normalization always parses; likewise for the generic fallback matches;
hence the parse-failure `continue` branches are unreachable and a text
matched by any labeled pattern always gets its total from the labeled
chain. -/
theorem claim_C10 :
    (∀ p ∈ patterns, ∀ (text : String) (v : String), searchLabel p text.data = some v →
      isAmountShape v = true ∧ (parseFloat (normalizeAmount v)).isSome = true) ∧
    (∀ (text : String) (v : String), v ∈ findAllNums text.data →
      isAmountShape v = true ∧ (parseFloat (normalizeAmount v)).isSome = true) ∧
    (∀ text : String, (∃ p ∈ patterns, (searchLabel p text.data).isSome = true) →
      (tryPatterns patterns text.data).isSome = true) := by
  refine ⟨?_, ?_, ?_⟩
  · intro p hp text v h
    exact ⟨searchLabel_isAmountShape h, searchLabel_parse_isSome h⟩
  · intro text v h
    exact ⟨findAllNums_isAmountShape h, findAllNums_parse_isSome h⟩
  · intro text h
    exact tryPatterns_isSome_of_match h

/-- C10 witness: a concrete labeled match has a shaped, parseable capture,
and a text matched by a labeled pattern resolves its total in the labeled
chain. -/
theorem claim_C10_witness :
    (isAmountShape "12,34" = true ∧ (parseFloat (normalizeAmount "12,34")).isSome = true) ∧
      (tryPatterns patterns ("ver TOTAL 1,00").data).isSome = true :=
  ⟨claim_C10.1 ⟨"Total a pagar", false⟩ (by decide) "diz Total a pagar 12,34" "12,34"
      (by decide),
    claim_C10.2.2 "ver TOTAL 1,00" ⟨⟨"TOTAL", false⟩, by decide, by decide⟩⟩

/-- C4: the numeric value of the resolved total always equals the result
of deleting every '.' from a matched amount substring, replacing ',' with
'.', and parsing the outcome as a decimal; "1.234,56" normalizes to
1234.56 and "12.34" normalizes to 1234. -/
theorem claim_C4 :
    (∀ (text : String) (q : ℚ), (extract_date_and_total text).2 = some q →
      ∃ v, ((∃ p ∈ patterns, searchLabel p text.data = some v) ∨
          (findAllNums text.data).getLast? = some v) ∧
        parseFloat (normalizeAmount v) = some q) ∧
    parseFloat (normalizeAmount "1.234,56") = some (123456 / 100 : ℚ) ∧
    parseFloat (normalizeAmount "12.34") = some (1234 : ℚ) := by
  refine ⟨?_, ?_, ?_⟩
  · intro text q h
    simp only [extract_date_and_total] at h
    split at h
    next t heq =>
      cases h
      obtain ⟨p, hp, v, hv, hparse⟩ := tryPatterns_some heq
      exact ⟨v, Or.inl ⟨p, hp, hv⟩, hparse⟩
    next =>
      split at h
      next v heq2 => exact ⟨v, Or.inr heq2, h⟩
      next => exact absurd h (by simp)
  · rw [show normalizeAmount "1.234,56" = "1234.56" from by decide,
      parseFloat_eq_of "1234.56" 1234 56 2 ⟨by decide, by decide, by decide⟩
        (by decide) (by decide) (by decide)]
    norm_num
  · rw [show normalizeAmount "12.34" = "1234" from by decide,
      parseFloat_eq_of "1234" 1234 0 0 ⟨by decide, by decide, by decide⟩
        (by decide) (by decide) (by decide)]
    norm_num

/-- C4 witness: at a concrete resolved text the total is the parse of the
normalized matched substring. -/
theorem claim_C4_witness :
    ∃ v, ((∃ p ∈ patterns, searchLabel p ("Total a pagar 5,00").data = some v) ∨
        (findAllNums ("Total a pagar 5,00").data).getLast? = some v) ∧
      parseFloat (normalizeAmount v) = some (5 : ℚ) := by
  have h1 := tryPatterns_first patterns ("Total a pagar 5,00").data 0 (by decide) "5,00"
    (fun j hj => absurd hj (Nat.not_lt_zero j)) (by decide)
  have h2 : normalizeAmount "5,00" = "5.00" := by decide
  have h3 := parseFloat_eq_of "5.00" 5 0 2 ⟨by decide, by decide, by decide⟩
    (by decide) (by decide) (by decide)
  have h4 : (extract_date_and_total "Total a pagar 5,00").2 = some (5 : ℚ) := by
    simp only [extract_date_and_total, h1, h2, h3]
    norm_num
  exact claim_C4.1 "Total a pagar 5,00" 5 h4

/-- C5: every persisted record — hence every row of `listAll` output —
has both a present date and a present total, with total ≥ 0; a document
whose extraction leaves either field absent is recorded as an error and
never stored. -/
theorem claim_C5 (docs : List (String × String)) (r : Row)
    (hr : r ∈ listAll ((processUploads docs).1)) :
    r.date.isSome = true ∧ r.total.isSome = true ∧ ∀ q, r.total = some q → 0 ≤ q := by
  have hr' : r ∈ (processUploads docs).1 := by simpa [listAll] using hr
  rcases foldl_uploads_mem docs ([], []) r hr' with h1 | h1
  · exact absurd h1 (by simp)
  · obtain ⟨d, t, text, hx, hd, ht⟩ := h1
    refine ⟨by simp [hd], by simp [ht], ?_⟩
    intro q hq
    rw [ht] at hq
    cases hq
    exact extract_total_nonneg (by rw [hx])

/-- C5 witness: a successfully resolved upload is stored with both fields
present and a nonnegative total. -/
theorem claim_C5_witness :
    ∃ r, r ∈ listAll ((processUploads
        [("a.pdf", "Fatura 12/05/2024 Total a pagar 5,00")]).1) ∧
      (r.date.isSome = true ∧ r.total.isSome = true ∧ ∀ q, r.total = some q → 0 ≤ q) := by
  have h1 := tryPatterns_first patterns ("Fatura 12/05/2024 Total a pagar 5,00").data 0
    (by decide) "5,00" (fun j hj => absurd hj (Nat.not_lt_zero j)) (by decide)
  have h2 : normalizeAmount "5,00" = "5.00" := by decide
  have h3 := parseFloat_eq_of "5.00" 5 0 2 ⟨by decide, by decide, by decide⟩
    (by decide) (by decide) (by decide)
  have hdate : (extract_date_and_total "Fatura 12/05/2024 Total a pagar 5,00").1 =
      some ⟨2024, 5, 12⟩ := by decide
  have h4 : extract_date_and_total "Fatura 12/05/2024 Total a pagar 5,00" =
      (some ⟨2024, 5, 12⟩, some (5 : ℚ)) := by
    refine Prod.ext hdate ?_
    simp only [extract_date_and_total, h1, h2, h3]
    norm_num
  have hdb : (processUploads [("a.pdf", "Fatura 12/05/2024 Total a pagar 5,00")]).1 =
      [⟨some ⟨2024, 5, 12⟩, some (5 : ℚ), "a.pdf"⟩] := by
    simp only [processUploads, List.foldl_cons, List.foldl_nil, uploadStep, h4,
      sqlite_insert, List.nil_append]
  have hmem : (⟨some ⟨2024, 5, 12⟩, some (5 : ℚ), "a.pdf"⟩ : Row) ∈
      listAll ((processUploads [("a.pdf", "Fatura 12/05/2024 Total a pagar 5,00")]).1) := by
    rw [hdb]
    simp [listAll, List.insertionSort, List.orderedInsert]
  exact ⟨_, hmem, claim_C5 _ _ hmem⟩

/-- C3 counterexample: the claim as stated quantifies over arbitrary
surrounding text; with a prefix that itself contains an earlier
date-shaped substring, resolution returns the prefix date, not the
embedded one.  Here `"13/01/2020 " ++ formatDMY ⟨2024,12,25⟩ ++ ""`
resolves to 13 Jan 2020 instead of 25 Dec 2024. -/
theorem claim_C3_counterexample :
    validDate ⟨2024, 12, 25⟩ ∧
      "13/01/2020 " ++ formatDMY ⟨2024, 12, 25⟩ ++ "" = "13/01/2020 25/12/2024" ∧
      (extract_date_and_total "13/01/2020 25/12/2024").1 = some ⟨2020, 1, 13⟩ ∧
      some (⟨2020, 1, 13⟩ : Date) ≠ some (⟨2024, 12, 25⟩ : Date) := by
  refine ⟨by decide, by decide, by decide, by decide⟩

/-- C3 (amended): for every valid calendar date formatted as DD/MM/YYYY
and arbitrary surrounding text whose prefix contains no digit characters,
resolution recovers exactly that date (with arbitrary prefixes, the first
date-shaped match in the whole text wins and can come from the prefix). -/
theorem claim_C3 (d : Date) (pre suf : String) (hd : validDate d)
    (hpre : ∀ c ∈ pre.data, c.isDigit = false) :
    (extract_date_and_total (pre ++ formatDMY d ++ suf)).1 = some d := by
  have hdata : (pre ++ formatDMY d ++ suf).data =
      pre.data ++ ((formatDMY d).data ++ suf.data) := by
    rw [String.data_append, String.data_append, List.append_assoc]
  have hsearch : searchDate ((pre ++ formatDMY d ++ suf)).data = some (formatDMY d) := by
    rw [hdata, searchDate_prepend hpre, searchDate_format d hd]
  simp only [extract_date_and_total, hsearch, parseDate_format d hd]

/-- C3 witness: a concrete embedded date is recovered exactly. -/
theorem claim_C3_witness :
    (extract_date_and_total ("Fatura de " ++ formatDMY ⟨2024, 12, 25⟩ ++ " obrigado")).1 =
      some ⟨2024, 12, 25⟩ :=
  claim_C3 ⟨2024, 12, 25⟩ "Fatura de " " obrigado" (by decide) (by decide)

/-! ### Lexicographic ordering of ISO date strings (C8) -/

theorem lexLe_total : ∀ (a b : List Char), lexLe a b = true ∨ lexLe b a = true
  | [], _ => Or.inl rfl
  | _ :: _, [] => Or.inr rfl
  | a :: as, b :: bs => by
    rw [lexLe, lexLe]
    rcases Nat.lt_trichotomy a.toNat b.toNat with h | h | h
    · left
      simp [h]
    · rcases lexLe_total as bs with ih | ih
      · left
        simp [h, ih]
      · right
        simp [h.symm, ih]
    · right
      simp [h]

theorem lexLe_trans :
    ∀ (a b c : List Char), lexLe a b = true → lexLe b c = true → lexLe a c = true
  | [], _, _, _, _ => rfl
  | _ :: _, [], _, h1, _ => absurd h1 (by simp [lexLe])
  | _ :: _, _ :: _, [], _, h2 => absurd h2 (by simp [lexLe])
  | a :: as, b :: bs, c :: cs, h1, h2 => by
    rw [lexLe] at h1 h2 ⊢
    rcases Nat.lt_trichotomy a.toNat b.toNat with hab | hab | hab
    · rcases Nat.lt_trichotomy b.toNat c.toNat with hbc | hbc | hbc
      · simp [Nat.lt_trans hab hbc]
      · simp [hbc ▸ hab]
      · rw [if_neg (by omega), if_neg (by omega)] at h2
        cases h2
    · rcases Nat.lt_trichotomy b.toNat c.toNat with hbc | hbc | hbc
      · simp [hab ▸ hbc]
      · rw [if_neg (by omega), if_pos hab] at h1
        rw [if_neg (by omega), if_pos hbc] at h2
        rw [if_neg (by omega), if_pos (hab.trans hbc)]
        exact lexLe_trans as bs cs h1 h2
      · rw [if_neg (by omega), if_neg (by omega)] at h2
        cases h2
    · rw [if_neg (by omega), if_neg (by omega)] at h1
      cases h1

instance : IsTotal Row rowLe :=
  ⟨fun a b => by
    rcases lexLe_total (isoKey a) (isoKey b) with h | h
    · exact Or.inl h
    · exact Or.inr h⟩

instance : IsTrans Row rowLe :=
  ⟨fun a b c h1 h2 => lexLe_trans (isoKey a) (isoKey b) (isoKey c) h1 h2⟩

theorem mul_add_lt_iff {B q1 q2 r1 r2 : Nat} (h1 : r1 < B) (h2 : r2 < B) :
    q1 * B + r1 < q2 * B + r2 ↔ q1 < q2 ∨ (q1 = q2 ∧ r1 < r2) := by
  constructor
  · intro h
    rcases Nat.lt_trichotomy q1 q2 with hq | hq | hq
    · exact Or.inl hq
    · subst hq
      exact Or.inr ⟨rfl, by omega⟩
    · exfalso
      have ha : q2 * B + r2 < (q2 + 1) * B := by
        rw [Nat.succ_mul]
        exact Nat.add_lt_add_left h2 _
      have hb : (q2 + 1) * B ≤ q1 * B := Nat.mul_le_mul_right B hq
      have := Nat.lt_of_lt_of_le ha (hb.trans (Nat.le_add_right _ r1))
      omega
  · intro h
    rcases h with hq | ⟨hq, hr⟩
    · calc q1 * B + r1 < (q1 + 1) * B := by
            rw [Nat.succ_mul]
            exact Nat.add_lt_add_left h1 _
        _ ≤ q2 * B := Nat.mul_le_mul_right B hq
        _ ≤ q2 * B + r2 := Nat.le_add_right _ _
    · subst hq
      exact Nat.add_lt_add_left hr _

theorem mul_add_eq_iff {B q1 q2 r1 r2 : Nat} (h1 : r1 < B) (h2 : r2 < B) :
    q1 * B + r1 = q2 * B + r2 ↔ q1 = q2 ∧ r1 = r2 := by
  constructor
  · intro h
    rcases Nat.lt_trichotomy q1 q2 with hq | hq | hq
    · exact absurd h (Nat.ne_of_lt ((mul_add_lt_iff h1 h2).mpr (Or.inl hq)))
    · subst hq
      exact ⟨rfl, by omega⟩
    · exact absurd h.symm (Nat.ne_of_lt ((mul_add_lt_iff h2 h1).mpr (Or.inl hq)))
  · intro ⟨hq, hr⟩
    rw [hq, hr]

theorem padNum_succ (k n : Nat) :
    padNum (k + 1) n = Char.ofNat (48 + n / 10 ^ k) :: padNum k (n % 10 ^ k) := by
  rw [padNum, zero_toNat_add]

theorem lexLe_pad :
    ∀ (k n m : Nat) (u v : List Char), n < 10 ^ k → m < 10 ^ k →
      (lexLe (padNum k n ++ u) (padNum k m ++ v) = true ↔
        (n < m ∨ (n = m ∧ lexLe u v = true)))
  | 0, n, m, u, v, hn, hm => by
    have h1 : (10 : Nat) ^ 0 = 1 := pow_zero 10
    have hn0 : n = 0 := by omega
    have hm0 : m = 0 := by omega
    subst hn0
    subst hm0
    simp [padNum]
  | k + 1, n, m, u, v, hn, hm => by
    have hB : 0 < 10 ^ k := Nat.pos_pow_of_pos k (by omega)
    have hps := pow_succ 10 k
    have hq1 : n / 10 ^ k < 10 := by
      rw [Nat.div_lt_iff_lt_mul hB]
      omega
    have hq2 : m / 10 ^ k < 10 := by
      rw [Nat.div_lt_iff_lt_mul hB]
      omega
    have hr1 : n % 10 ^ k < 10 ^ k := Nat.mod_lt _ hB
    have hr2 : m % 10 ^ k < 10 ^ k := Nat.mod_lt _ hB
    have hdn : n / 10 ^ k * 10 ^ k + n % 10 ^ k = n := by
      rw [Nat.mul_comm]
      exact Nat.div_add_mod n (10 ^ k)
    have hdm : m / 10 ^ k * 10 ^ k + m % 10 ^ k = m := by
      rw [Nat.mul_comm]
      exact Nat.div_add_mod m (10 ^ k)
    have hlt : n < m ↔ (n / 10 ^ k < m / 10 ^ k ∨
        (n / 10 ^ k = m / 10 ^ k ∧ n % 10 ^ k < m % 10 ^ k)) := by
      rw [← hdn, ← hdm, mul_add_lt_iff hr1 hr2]
      rw [hdn, hdm]
    have heq : n = m ↔ (n / 10 ^ k = m / 10 ^ k ∧ n % 10 ^ k = m % 10 ^ k) := by
      rw [← hdn, ← hdm, mul_add_eq_iff hr1 hr2]
      rw [hdn, hdm]
    rw [padNum_succ, padNum_succ, List.cons_append, List.cons_append, lexLe,
      charOfNat_toNat _ hq1, charOfNat_toNat _ hq2]
    have IH := lexLe_pad k (n % 10 ^ k) (m % 10 ^ k) u v hr1 hr2
    rcases Nat.lt_trichotomy (n / 10 ^ k) (m / 10 ^ k) with hq | hq | hq
    · rw [if_pos (by omega)]
      simp only [true_iff]
      exact Or.inl (hlt.mpr (Or.inl hq))
    · rw [if_neg (by omega), if_pos (by omega)]
      rw [IH]
      constructor
      · rintro (hlt2 | ⟨heq2, hu⟩)
        · exact Or.inl (hlt.mpr (Or.inr ⟨hq, hlt2⟩))
        · exact Or.inr ⟨heq.mpr ⟨hq, heq2⟩, hu⟩
      · rintro (hlt2 | ⟨heq2, hu⟩)
        · rcases hlt.mp hlt2 with h3 | ⟨h3, h4⟩
          · omega
          · exact Or.inl h4
        · exact Or.inr ⟨(heq.mp heq2).2, hu⟩
    · rw [if_neg (by omega), if_neg (by omega)]
      constructor
      · intro hc
        exact absurd hc (by simp)
      · rintro (hlt2 | ⟨heq2, _⟩)
        · exfalso
          rcases hlt.mp hlt2 with h3 | ⟨h3, _⟩ <;> omega
        · exfalso
          have := (heq.mp heq2).1
          omega

theorem lexLe_dash_cons (a b : List Char) :
    lexLe ('-' :: a) ('-' :: b) = lexLe a b := by
  rw [lexLe]
  norm_num

theorem isoLe_iff_chron {d1 d2 : Date} (h1 : validDate d1) (h2 : validDate d2) :
    (lexLe (dateISO d1) (dateISO d2) = true) ↔ chronLe d1 d2 := by
  obtain ⟨hm1, hm2, hdl, hdu, hy1, hy2⟩ := h1
  obtain ⟨hm1', hm2', hdl', hdu', hy1', hy2'⟩ := h2
  have hdm := daysInMonth_le d1.year d1.month
  have hdm' := daysInMonth_le d2.year d2.month
  have hy : d1.year < 10 ^ 4 := by norm_num; omega
  have hy' : d2.year < 10 ^ 4 := by norm_num; omega
  have hm : d1.month < 10 ^ 2 := by norm_num; omega
  have hm' : d2.month < 10 ^ 2 := by norm_num; omega
  have hd : d1.day < 10 ^ 2 := by norm_num; omega
  have hd' : d2.day < 10 ^ 2 := by norm_num; omega
  rw [dateISO, dateISO, lexLe_pad 4 _ _ _ _ hy hy', chronLe]
  constructor
  · rintro (h | ⟨hyy, h⟩)
    · exact Or.inl h
    · refine Or.inr ⟨hyy, ?_⟩
      rw [lexLe_dash_cons, lexLe_pad 2 _ _ _ _ hm hm'] at h
      rcases h with h | ⟨hmm, h⟩
      · exact Or.inl h
      · refine Or.inr ⟨hmm, ?_⟩
        rw [lexLe_dash_cons] at h
        have h' : lexLe (padNum 2 d1.day ++ []) (padNum 2 d2.day ++ []) = true := by
          simpa using h
        rw [lexLe_pad 2 _ _ _ _ hd hd'] at h'
        rcases h' with h' | ⟨h', _⟩ <;> omega
  · rintro (h | ⟨hyy, h⟩)
    · exact Or.inl h
    · refine Or.inr ⟨hyy, ?_⟩
      rw [lexLe_dash_cons, lexLe_pad 2 _ _ _ _ hm hm']
      rcases h with h | ⟨hmm, h⟩
      · exact Or.inl h
      · refine Or.inr ⟨hmm, ?_⟩
        rw [lexLe_dash_cons]
        have h' : lexLe (padNum 2 d1.day ++ []) (padNum 2 d2.day ++ []) = true := by
          rw [lexLe_pad 2 _ _ _ _ hd hd']
          rcases Nat.lt_or_ge d1.day d2.day with h2 | h2
          · exact Or.inl h2
          · exact Or.inr ⟨by omega, rfl⟩
        simpa using h'

theorem parseDate_valid {s : String} {d : Date} (h : parseDate s = some d) :
    validDate d := by
  rw [parseDate] at h
  split at h
  · split at h
    · dsimp only at h
      split at h
      next hcond =>
        simp only [Option.some.injEq] at h
        rw [← h]
        exact ⟨hcond.1, hcond.2.1, hcond.2.2.1, hcond.2.2.2.1, hcond.2.2.2.2.1,
          hcond.2.2.2.2.2⟩
      next => exact absurd h (by simp)
    · exact absurd h (by simp)
  · exact absurd h (by simp)

theorem extract_date_valid {text : String} {d : Date}
    (h : (extract_date_and_total text).1 = some d) : validDate d := by
  simp only [extract_date_and_total] at h
  split at h
  next s heq => exact parseDate_valid h
  next => exact absurd h (by simp)

theorem processUploads_date_valid (docs : List (String × String)) {r : Row}
    (hr : r ∈ (processUploads docs).1) : ∃ dd, r.date = some dd ∧ validDate dd := by
  rcases foldl_uploads_mem docs ([], []) r hr with h | h
  · exact absurd h (by simp)
  · obtain ⟨d, t, text, hx, hd, ht⟩ := h
    refine ⟨d, hd, extract_date_valid (show (extract_date_and_total text).1 = some d by
      rw [hx])⟩

/-- C8: `listAll` returns exactly the persisted records (a permutation of
the store), sorted chronologically by date ascending: for the year range
producible by extraction (1-9999, zero-padded), byte-wise lexicographic
order of the stored ISO `YYYY-MM-DD` strings coincides with chronological
order. -/
theorem claim_C8 (docs : List (String × String)) :
    (listAll ((processUploads docs).1)).Perm ((processUploads docs).1) ∧
      (listAll ((processUploads docs).1)).Sorted rowChron := by
  refine ⟨List.perm_insertionSort rowLe _, ?_⟩
  have hsorted : (listAll ((processUploads docs).1)).Sorted rowLe :=
    List.sorted_insertionSort rowLe _
  refine hsorted.imp_of_mem ?_
  intro a b ha hb hab
  have ha' : a ∈ (processUploads docs).1 :=
    (List.perm_insertionSort rowLe _).subset ha
  have hb' : b ∈ (processUploads docs).1 :=
    (List.perm_insertionSort rowLe _).subset hb
  obtain ⟨d1, hd1, hv1⟩ := processUploads_date_valid docs ha'
  obtain ⟨d2, hd2, hv2⟩ := processUploads_date_valid docs hb'
  rw [rowLe, isoKey, isoKey, hd1, hd2] at hab
  rw [rowChron, hd1, hd2]
  exact (isoLe_iff_chron hv1 hv2).mp hab

end Faturas
